import Mathlib

/-!
Verification of the numerical core of the ODE-ANALYSER-API repository.

Numbers are modelled as rationals (exact arithmetic in place of IEEE doubles);
JavaScript arrays become `List ℚ`, out-of-range element reads (`undefined` in
JavaScript, which turns subsequent arithmetic into `NaN`) become `List.getD`
with default `0` — every claim about element values is stated under the
well-shapedness hypotheses that rule such reads out, while claims about
shapes (lengths) are insensitive to the default.  `Record<string, number>`
parameter objects become functions `String → ℚ`.
-/

namespace OdeAnalyser

/-- Parameter mapping, from `Record<string, number>`. -/
def Params : Type := String → ℚ

/-- The derivative-function type `OdeFunction` of `src/services/odeSolver.ts`:
`(t: number, y: number[], params: Record<string, number>) => number[]`. -/
def OdeFunction : Type := ℚ → List ℚ → Params → List ℚ

/-- The `SimulationResult` interface of the repository's type declarations:
`{ time: number[]; series: number[][] }`. -/
structure SimulationResult where
  time : List ℚ
  series : List (List ℚ)
deriving DecidableEq

/-- The `SimulationParams` interface of the repository's type declarations. -/
structure SimulationParams where
  initialConditions : List ℚ
  t_start : ℚ
  t_end : ℚ
  stepSize : ℚ
  transient : ℚ

/-- One step of the RK4 method, translated from `rk4Step` in
`src/services/odeSolver.ts` (lines 15–32).  Each JavaScript
`y.map((yi, i) => …)` becomes `List.mapIdx`; the indexed reads `k[i]`
become `List.getD _ i 0`. -/
def rk4Step (f : OdeFunction) (t : ℚ) (y : List ℚ) (h : ℚ) (p : Params) : List ℚ :=
  let k1 := f t y p
  let y_k2 := y.mapIdx fun i yi => yi + 0.5 * h * k1.getD i 0
  let k2 := f (t + 0.5 * h) y_k2 p
  let y_k3 := y.mapIdx fun i yi => yi + 0.5 * h * k2.getD i 0
  let k3 := f (t + 0.5 * h) y_k3 p
  let y_k4 := y.mapIdx fun i yi => yi + h * k3.getD i 0
  let k4 := f (t + h) y_k4 p
  y.mapIdx fun i yi => yi + (h / 6) * (k1.getD i 0 + 2 * k2.getD i 0 + 2 * k3.getD i 0 + k4.getD i 0)

/-- The body of the `for` loop of `rungeKutta4` (lines 61–69 of
`src/services/odeSolver.ts`), run for `k` iterations from time `t` and
state `y`: returns the list of appended times and the list of appended
states, in iteration order. -/
def rk4Loop (f : OdeFunction) (h : ℚ) (p : Params) (t : ℚ) (y : List ℚ) :
    Nat → List ℚ × List (List ℚ)
  | 0 => ([], [])
  | k + 1 =>
    let y2 := rk4Step f t y h p
    let t2 := t + h
    let rest := rk4Loop f h p t2 y2 k
    (t2 :: rest.1, y2 :: rest.2)

/-- The loop bound `num_steps = Math.floor((t_end - t_start) / stepSize)` of
`rungeKutta4`: the JavaScript loop `for (let i = 0; i < num_steps; i++)`
runs `max 0 num_steps` times, i.e. `Int.toNat` of the rational floor. -/
def numSteps (t_start t_end stepSize : ℚ) : Nat :=
  (Int.floor ((t_end - t_start) / stepSize)).toNat

/-- The trajectory sampler `rungeKutta4` of `src/services/odeSolver.ts`
(lines 44–72).  `time` seeds with `t_start` and receives one entry per
iteration; `series[j]` seeds with `initialConditions[j]` and receives
`y[j]` per iteration. -/
def rungeKutta4 (odeFunction : OdeFunction) (initialConditions : List ℚ)
    (t_start t_end stepSize : ℚ) (params : Params) : SimulationResult :=
  let n_vars := initialConditions.length
  let num_steps := numSteps t_start t_end stepSize
  let r := rk4Loop odeFunction stepSize params t_start initialConditions num_steps
  { time := t_start :: r.1
    series := (List.range n_vars).map fun j =>
      initialConditions.getD j 0 :: r.2.map fun y => y.getD j 0 }

/-- The local-maxima loop of `handleRunBifurcation`
(`src/unnamed/part_001`, lines 130–134): collect `series[j]` for
`j = 1 … series.length - 2` with `series[j] > series[j-1]` and
`series[j] > series[j+1]`. -/
def localMaxima (s : List ℚ) : List ℚ :=
  (List.range' 1 (s.length - 1 - 1)).filterMap fun j =>
    if s.getD (j - 1) 0 < s.getD j 0 ∧ s.getD (j + 1) 0 < s.getD j 0 then
      some (s.getD j 0)
    else none

/-- The fixed transient cut of `handleRunBifurcation`
(`src/unnamed/part_001`, line 126): `Math.floor(100 / 0.05)`. -/
def transientSteps : Nat := (Int.floor ((100 : ℚ) / (0.05 : ℚ))).toNat

/-- Object spread `{ ...base, [name]: v }` on a parameter record. -/
def overrideParam (base : Params) (name : String) (v : ℚ) : Params :=
  fun k => if k = name then v else base k

/-- The `paramRange` state object of the bifurcation tab:
`{ min, max, steps }`. -/
structure ParamRange where
  min : ℚ
  max : ℚ
  steps : Nat

/-- The `phasePortraitData` computation of `src/unnamed/part_001`
(lines 88–97): downsample with stride `max(1, floor(L / 2000))` where
`L = series[0].length`, visiting indices `0, stride, 2·stride, …` below
`L` — i.e. `ceil(L / stride)` many — and pairing
`series[xIndex][i]` with `series[yIndex][i]`. -/
def phasePortraitData (series : List (List ℚ)) (xIndex yIndex : Nat) :
    List (ℚ × ℚ) :=
  let L := (series.getD 0 []).length
  let stride := max 1 (L / 2000)
  (List.range' 0 ((L + stride - 1) / stride) stride).map fun i =>
    ((series.getD xIndex []).getD i 0, (series.getD yIndex []).getD i 0)

/-- The numerical core of `handleRunBifurcation`
(`src/unnamed/part_001`, lines 115–136): for `i = 0 … steps`, override the
swept parameter with `min + i · (max - min) / steps`, run `rungeKutta4`
with the caller's initial conditions but `t_start = 0`, `t_end = 200`,
`stepSize = 0.05`, slice the observed variable's series from index
`transientSteps` on, and push one `(paramValue, series[j])` pair per local
maximum. -/
def handleRunBifurcation (odeFunction : OdeFunction) (baseParams : Params)
    (bifurcationParam : String) (paramRange : ParamRange)
    (simulationParams : SimulationParams) (bifurcationVarIndex : Nat) :
    List (ℚ × ℚ) :=
  let step := (paramRange.max - paramRange.min) / paramRange.steps
  (List.range (paramRange.steps + 1)).flatMap fun i =>
    let paramValue := paramRange.min + i * step
    let currentParams := overrideParam baseParams bifurcationParam paramValue
    let simResult := rungeKutta4 odeFunction simulationParams.initialConditions
      0 200 0.05 currentParams
    let series := (simResult.series.getD bifurcationVarIndex []).drop transientSteps
    (localMaxima series).map fun m => (paramValue, m)

/-- The combined state update of one iteration of the `rungeKutta4` loop:
`y = rk4Step(f, t, y, h, params); t += h`. -/
def step1 (f : OdeFunction) (h : ℚ) (p : Params) (s : ℚ × List ℚ) : ℚ × List ℚ :=
  (s.1 + h, rk4Step f s.1 s.2 h p)

/-- The state vector held by the `rungeKutta4` loop after `m` iterations. -/
def stateAt (f : OdeFunction) (h : ℚ) (p : Params) (t0 : ℚ) (y0 : List ℚ)
    (m : Nat) : List ℚ :=
  ((step1 f h p)^[m] (t0, y0)).2

/-- Componentwise vector addition, for stating the classical RK4 formula of
the spec (§4.1): `y + v`. -/
def vecAdd (a b : List ℚ) : List ℚ := a.zipWith (· + ·) b

/-- Scalar multiple of a vector, for stating the classical RK4 formula of
the spec (§4.1): `c · v`. -/
def smulVec (c : ℚ) (a : List ℚ) : List ℚ := a.map fun x => c * x

/-- Local-maxima extraction as worded by the spec (§4.3): the values `s[j]`
at interior indices `j` with `s[j] > s[j-1]` and `s[j] > s[j+1]`, endpoints
never qualifying. -/
def localMaximaSpec (s : List ℚ) : List ℚ :=
  ((List.range s.length).filter fun j =>
    decide (0 < j ∧ j + 1 < s.length ∧
      s.getD (j - 1) 0 < s.getD j 0 ∧ s.getD (j + 1) 0 < s.getD j 0)).map
    fun j => s.getD j 0

/-- Transient trim as worded by the spec (§4.3): the suffix of a series
whose timestamps are `≥ t_start + transient`, realised as filtering the
timestamp/value pairs. -/
def trimSpec (t_start transient : ℚ) (time s : List ℚ) : List ℚ :=
  ((time.zip s).filter fun tv => decide (t_start + transient ≤ tv.1)).map Prod.snd

/-- Parameter sweep as worded by claim C6 and the spec (§4.3): for
`i = 0 … steps`, override the swept parameter with
`min + i · (max - min) / steps`, run the Trajectory Sampler with the
caller-supplied simulation settings, trim the transient, extract local
maxima of the observed variable, and emit one pair per maximum. -/
def sweepSpec (f : OdeFunction) (baseParams : Params) (name : String)
    (pr : ParamRange) (sp : SimulationParams) (observedVariableIndex : Nat) :
    List (ℚ × ℚ) :=
  (List.range (pr.steps + 1)).flatMap fun i =>
    let paramValue := pr.min + i * ((pr.max - pr.min) / pr.steps)
    let R := rungeKutta4 f sp.initialConditions sp.t_start sp.t_end sp.stepSize
      (overrideParam baseParams name paramValue)
    let s := trimSpec sp.t_start sp.transient R.time
      (R.series.getD observedVariableIndex [])
    (localMaximaSpec s).map fun m => (paramValue, m)

/-- Parameter sweep as worded by the spec but with the timing constants the
source actually uses: every sweep point integrates over `t_start = 0`,
`t_end = 200`, `stepSize = 0.05` and trims a fixed transient of `100` time
units; only `initialConditions` comes from the caller's settings. -/
def sweepSpecAmended (f : OdeFunction) (baseParams : Params) (name : String)
    (pr : ParamRange) (sp : SimulationParams) (observedVariableIndex : Nat) :
    List (ℚ × ℚ) :=
  (List.range (pr.steps + 1)).flatMap fun i =>
    let paramValue := pr.min + i * ((pr.max - pr.min) / pr.steps)
    let R := rungeKutta4 f sp.initialConditions 0 200 0.05
      (overrideParam baseParams name paramValue)
    let s := trimSpec 0 100 R.time (R.series.getD observedVariableIndex [])
    (localMaximaSpec s).map fun m => (paramValue, m)

/-- The all-zero parameter record, used for concrete instances. -/
def pZero : Params := fun _ => 0

/-- A square-pulse scalar signal: `1` up to time `1`, then `-1`. -/
def gWave (t : ℚ) : ℚ := if t ≤ 1 then 1 else -1

/-- One-dimensional system whose derivative is the square pulse `gWave`;
its trajectory rises until `t = 1` and decreases forever afterwards. -/
def fWave : OdeFunction := fun t _ _ => [gWave t]

/-- One-dimensional system with zero derivative. -/
def fZero : OdeFunction := fun _ _ _ => [0]

/-- A derivative function that always returns the empty vector — a
wrong-length output for every nonempty state. -/
def fEmpty : OdeFunction := fun _ _ _ => []

/-- Constant-derivative system `f ≡ c`. -/
def fConst (c : List ℚ) : OdeFunction := fun _ _ _ => c

/-! ### Helper lemmas -/

theorem rk4Step_length (f : OdeFunction) (t : ℚ) (y : List ℚ) (h : ℚ) (p : Params) :
    (rk4Step f t y h p).length = y.length := by
  simp [rk4Step]

theorem getD_map_range {α : Type} (g : Nat → α) (n j : Nat) (d : α) (hj : j < n) :
    (((List.range n).map g).getD j d) = g j := by
  rw [List.getD_eq_getElem _ _ (by simpa using hj)]
  simp

theorem getD_map_range' {α : Type} (g : Nat → α) (a n j : Nat) (d : α) (hj : j < n) :
    (((List.range' a n).map g).getD j d) = g (a + j) := by
  rw [List.getD_eq_getElem _ _ (by simpa using hj)]
  simp

theorem list_eq_map_getD {α : Type} (l : List α) (d : α) :
    (List.range l.length).map (fun j => l.getD j d) = l := by
  apply List.ext_getElem (by simp)
  intro i h1 h2
  simp only [List.getElem_map, List.getElem_range]
  exact List.getD_eq_getElem l d h2

theorem rk4Loop_eq (f : OdeFunction) (h : ℚ) (p : Params) :
    ∀ (k : Nat) (t : ℚ) (y : List ℚ),
      rk4Loop f h p t y k
        = ((List.range k).map fun m => ((step1 f h p)^[m + 1] (t, y)).1,
           (List.range k).map fun m => ((step1 f h p)^[m + 1] (t, y)).2) := by
  intro k
  induction k with
  | zero => intro t y; simp [rk4Loop]
  | succ k ih =>
    intro t y
    have hone : step1 f h p (t, y) = (t + h, rk4Step f t y h p) := rfl
    have htail : ∀ m, m ∈ List.range k →
        (step1 f h p)^[m + 1] (t + h, rk4Step f t y h p)
          = (step1 f h p)^[m.succ + 1] (t, y) := by
      intro m _
      have hit := Function.iterate_succ_apply (step1 f h p) (m + 1) (t, y)
      rw [hone] at hit
      exact hit.symm
    rw [rk4Loop, ih (t + h) (rk4Step f t y h p), List.range_succ_eq_map]
    simp only [List.map_cons, List.map_map]
    refine congrArg₂ Prod.mk (congrArg₂ List.cons ?_ ?_) (congrArg₂ List.cons ?_ ?_)
    · rw [show (0 : Nat) + 1 = 1 from rfl, Function.iterate_one, hone]
    · exact List.map_congr_left fun m hm => congrArg Prod.fst (htail m hm)
    · rw [show (0 : Nat) + 1 = 1 from rfl, Function.iterate_one, hone]
    · exact List.map_congr_left fun m hm => congrArg Prod.snd (htail m hm)

theorem step1_iterate_fst (f : OdeFunction) (h : ℚ) (p : Params) (t0 : ℚ) (y0 : List ℚ) :
    ∀ m : Nat, ((step1 f h p)^[m] (t0, y0)).1 = t0 + m * h := by
  intro m
  induction m with
  | zero => simp
  | succ m ih =>
    rw [Function.iterate_succ_apply']
    show ((step1 f h p)^[m] (t0, y0)).1 + h = _
    rw [ih]
    push_cast
    ring

theorem stateAt_zero (f : OdeFunction) (h : ℚ) (p : Params) (t0 : ℚ) (y0 : List ℚ) :
    stateAt f h p t0 y0 0 = y0 := rfl

theorem stateAt_succ (f : OdeFunction) (h : ℚ) (p : Params) (t0 : ℚ) (y0 : List ℚ)
    (m : Nat) :
    stateAt f h p t0 y0 (m + 1)
      = rk4Step f (t0 + m * h) (stateAt f h p t0 y0 m) h p := by
  unfold stateAt
  rw [Function.iterate_succ_apply']
  show rk4Step f ((step1 f h p)^[m] (t0, y0)).1 ((step1 f h p)^[m] (t0, y0)).2 h p = _
  rw [step1_iterate_fst]

theorem stateAt_length (f : OdeFunction) (h : ℚ) (p : Params) (t0 : ℚ) (y0 : List ℚ) :
    ∀ m : Nat, (stateAt f h p t0 y0 m).length = y0.length := by
  intro m
  induction m with
  | zero => rfl
  | succ m ih => rw [stateAt_succ, rk4Step_length]; exact ih

theorem rungeKutta4_time (f : OdeFunction) (y0 : List ℚ) (t0 t1 h : ℚ) (p : Params) :
    (rungeKutta4 f y0 t0 t1 h p).time
      = (List.range (numSteps t0 t1 h + 1)).map fun m : Nat => t0 + (m : ℚ) * h := by
  show t0 :: (rk4Loop f h p t0 y0 (numSteps t0 t1 h)).1 = _
  rw [rk4Loop_eq]
  apply List.ext_getElem (by simp)
  intro i h1 h2
  rcases i with _ | m
  · simp
  · simp only [List.getElem_cons_succ, List.getElem_map, List.getElem_range]
    rw [step1_iterate_fst]

theorem rungeKutta4_series (f : OdeFunction) (y0 : List ℚ) (t0 t1 h : ℚ) (p : Params) :
    (rungeKutta4 f y0 t0 t1 h p).series
      = (List.range y0.length).map fun j =>
          (List.range (numSteps t0 t1 h + 1)).map fun m =>
            (stateAt f h p t0 y0 m).getD j 0 := by
  show (List.range y0.length).map (fun j =>
      y0.getD j 0 :: (rk4Loop f h p t0 y0 (numSteps t0 t1 h)).2.map fun y => y.getD j 0) = _
  apply List.map_congr_left
  intro j _
  rw [rk4Loop_eq, List.range_succ_eq_map]
  simp only [List.map_cons, List.map_map]
  rfl

theorem rungeKutta4_series_getD (f : OdeFunction) (y0 : List ℚ) (t0 t1 h : ℚ)
    (p : Params) (j : Nat) (hj : j < y0.length) :
    (rungeKutta4 f y0 t0 t1 h p).series.getD j []
      = (List.range (numSteps t0 t1 h + 1)).map fun m =>
          (stateAt f h p t0 y0 m).getD j 0 := by
  rw [rungeKutta4_series, getD_map_range _ _ _ _ hj]

theorem filterMap_if_eq {α β : Type} (l : List α) (p : α → Prop) [DecidablePred p]
    (g : α → β) :
    (l.filterMap fun a => if p a then some (g a) else none)
      = (l.filter fun a => decide (p a)).map g := by
  induction l with
  | nil => rfl
  | cons a l ih =>
    by_cases hpa : p a
    · simp [List.filterMap_cons, List.filter_cons, hpa, ih]
    · simp [List.filterMap_cons, List.filter_cons, hpa, ih]

theorem filter_range_interior (n : Nat) (P : Nat → Prop) [DecidablePred P] :
    ((List.range n).filter fun j => decide (0 < j ∧ j + 1 < n ∧ P j))
      = (List.range' 1 (n - 1 - 1)).filter fun j => decide (P j) := by
  rcases n with _ | _ | m
  · rfl
  · simp
  · have h2 : List.range (m + 2) = List.range' 0 1 ++ List.range' 1 m ++ [1 + m] := by
      rw [List.range_eq_range']
      rw [show [1 + m] = List.range' (1 + m) 1 from rfl]
      rw [List.append_assoc, List.range'_append_1, List.range'_append_1]
      congr 1
      omega
    have hm : m + 2 - 1 - 1 = m := by omega
    rw [h2, hm, List.filter_append, List.filter_append]
    have h0 : (List.range' 0 1).filter
        (fun j => decide (0 < j ∧ j + 1 < m + 2 ∧ P j)) = [] := by
      simp
    have hlast : [1 + m].filter
        (fun j => decide (0 < j ∧ j + 1 < m + 2 ∧ P j)) = [] := by
      simp only [List.filter_eq_nil_iff, List.mem_singleton, decide_eq_true_eq]
      rintro a rfl ⟨-, hb, -⟩
      omega
    rw [h0, hlast, List.nil_append, List.append_nil]
    apply List.filter_congr
    intro j hj
    rw [List.mem_range'] at hj
    obtain ⟨i, hi, rfl⟩ := hj
    rw [decide_eq_decide]
    constructor
    · rintro ⟨-, -, hP⟩; exact hP
    · intro hP; exact ⟨by omega, by omega, hP⟩

theorem localMaxima_eq_spec (s : List ℚ) : localMaxima s = localMaximaSpec s := by
  unfold localMaxima localMaximaSpec
  rw [filterMap_if_eq _
    (fun j => s.getD (j - 1) 0 < s.getD j 0 ∧ s.getD (j + 1) 0 < s.getD j 0)
    (fun j => s.getD j 0)]
  rw [filter_range_interior s.length
    (fun j => s.getD (j - 1) 0 < s.getD j 0 ∧ s.getD (j + 1) 0 < s.getD j 0)]

theorem localMaxima_eq_nil_of_none (s : List ℚ)
    (hno : ∀ j, 0 < j → j + 1 < s.length →
      ¬(s.getD (j - 1) 0 < s.getD j 0 ∧ s.getD (j + 1) 0 < s.getD j 0)) :
    localMaxima s = [] := by
  rw [localMaxima_eq_spec]
  unfold localMaximaSpec
  rw [List.map_eq_nil_iff, List.filter_eq_nil_iff]
  intro j _
  simp only [decide_eq_true_eq]
  rintro ⟨h0, h1, hC⟩
  exact hno j h0 h1 hC

theorem numSteps_bifurcation : numSteps 0 200 0.05 = 4000 := by
  have h1 : ((200 : ℚ) - 0) / 0.05 = 4000 := by norm_num
  rw [numSteps, h1]
  rfl

theorem transientSteps_eq : transientSteps = 2000 := by
  have h1 : (100 : ℚ) / 0.05 = 2000 := by norm_num
  rw [transientSteps, h1]
  rfl

theorem range_4001_split :
    List.range 4001 = List.range' 0 2000 ++ List.range' 2000 2001 := by
  rw [List.range_eq_range']
  rw [show (2000 : Nat) = 0 + 2000 from rfl, List.range'_append_1]

theorem drop_series_eq (f : OdeFunction) (p : Params) (y0 : List ℚ) (j : Nat)
    (hj : j < y0.length) :
    ((rungeKutta4 f y0 0 200 0.05 p).series.getD j []).drop transientSteps
      = (List.range' 2000 2001).map fun m => (stateAt f 0.05 p 0 y0 m).getD j 0 := by
  rw [rungeKutta4_series_getD f y0 0 200 0.05 p j hj, numSteps_bifurcation,
    transientSteps_eq, show (4000 : Nat) + 1 = 4001 from rfl, range_4001_split,
    List.map_append]
  exact List.drop_left' (by simp)

theorem trim_series_eq (f : OdeFunction) (p : Params) (y0 : List ℚ) (j : Nat)
    (hj : j < y0.length) :
    trimSpec 0 100 (rungeKutta4 f y0 0 200 0.05 p).time
        ((rungeKutta4 f y0 0 200 0.05 p).series.getD j [])
      = (List.range' 2000 2001).map fun m => (stateAt f 0.05 p 0 y0 m).getD j 0 := by
  rw [trimSpec, rungeKutta4_series_getD f y0 0 200 0.05 p j hj,
    rungeKutta4_time f y0 0 200 0.05 p, numSteps_bifurcation,
    show (4000 : Nat) + 1 = 4001 from rfl, List.zip_map', List.filter_map]
  have hfc : ∀ m ∈ List.range 4001,
      (((fun tv : ℚ × ℚ => decide ((0 : ℚ) + 100 ≤ tv.1)) ∘ fun m : Nat =>
          ((0 : ℚ) + (m : ℚ) * 0.05, (stateAt f 0.05 p 0 y0 m).getD j 0)) m)
        = decide (2000 ≤ m) := by
    intro m _
    simp only [Function.comp]
    rw [decide_eq_decide]
    constructor
    · intro hle
      have h20 : (2000 : ℚ) ≤ (m : ℚ) := by
        nlinarith [hle]
      exact_mod_cast h20
    · intro hle
      have h20 : (2000 : ℚ) ≤ (m : ℚ) := by exact_mod_cast hle
      nlinarith [h20]
  rw [List.filter_congr hfc]
  have hfil : (List.range 4001).filter (fun m => decide (2000 ≤ m))
      = List.range' 2000 2001 := by
    rw [range_4001_split, List.filter_append]
    have hlo : (List.range' 0 2000).filter (fun m => decide (2000 ≤ m)) = [] := by
      rw [List.filter_eq_nil_iff]
      intro a ha
      rw [List.mem_range'] at ha
      obtain ⟨i, hi, rfl⟩ := ha
      simp only [decide_eq_true_eq]
      omega
    have hhi : (List.range' 2000 2001).filter (fun m => decide (2000 ≤ m))
        = List.range' 2000 2001 := by
      rw [List.filter_eq_self]
      intro a ha
      rw [List.mem_range'] at ha
      obtain ⟨i, hi, rfl⟩ := ha
      simp only [decide_eq_true_eq]
      omega
    rw [hlo, hhi, List.nil_append]
  rw [hfil, List.map_map]
  rfl

theorem drop_eq_trim (f : OdeFunction) (p : Params) (y0 : List ℚ) (j : Nat)
    (hj : j < y0.length) :
    ((rungeKutta4 f y0 0 200 0.05 p).series.getD j []).drop transientSteps
      = trimSpec 0 100 (rungeKutta4 f y0 0 200 0.05 p).time
          ((rungeKutta4 f y0 0 200 0.05 p).series.getD j []) :=
  (drop_series_eq f p y0 j hj).trans (trim_series_eq f p y0 j hj).symm

theorem gWave_of_gt (t : ℚ) (ht : 1 < t) : gWave t = -1 := if_neg (by linarith)

theorem rk4Step_wave (p : Params) (t v : ℚ) (ht : 1 < t) :
    rk4Step fWave t [v] 0.05 p = [v - 0.05] := by
  have h1 : fWave t [v] p = [-1] := by
    show [gWave t] = [-1]
    rw [gWave_of_gt t ht]
  simp only [rk4Step, fWave, List.mapIdx_singleton, List.getD_cons_zero]
  rw [gWave_of_gt t ht, gWave_of_gt (t + 0.5 * 0.05) (by linarith),
    gWave_of_gt (t + 0.05) (by linarith)]
  have hval : v + 0.05 / 6 * (-1 + 2 * -1 + 2 * -1 + -1) = v - 0.05 := by ring
  rw [hval]

theorem stateAt_wave_shape (p : Params) (k : Nat) :
    ∃ v : ℚ, stateAt fWave 0.05 p 0 [0] k = [v] :=
  List.length_eq_one.mp (stateAt_length fWave 0.05 p 0 [0] k)

theorem wave_decreasing (p : Params) (k : Nat) (hk : 21 ≤ k) :
    (stateAt fWave 0.05 p 0 [0] (k + 1)).getD 0 0
      ≤ (stateAt fWave 0.05 p 0 [0] k).getD 0 0 := by
  obtain ⟨v, hv⟩ := stateAt_wave_shape p k
  have hk21 : (21 : ℚ) ≤ (k : ℚ) := by exact_mod_cast hk
  have ht : 1 < (0 : ℚ) + (k : ℚ) * 0.05 := by linarith
  rw [stateAt_succ, hv, rk4Step_wave p _ v ht]
  simp only [List.getD_cons_zero]
  linarith

theorem wave_trim_nil (p : Params) :
    localMaxima (((rungeKutta4 fWave [0] 0 200 0.05 p).series.getD 0 []).drop
      transientSteps) = [] := by
  rw [drop_series_eq fWave p [0] 0 (by simp)]
  apply localMaxima_eq_nil_of_none
  intro j hj0 hjlen
  rw [List.length_map, List.length_range'] at hjlen
  have hj1 : j - 1 < 2001 := by omega
  have hj2 : j < 2001 := by omega
  rw [getD_map_range' _ _ _ _ _ hj1, getD_map_range' _ _ _ _ _ hj2]
  rintro ⟨hlt, -⟩
  have hdec := wave_decreasing p (2000 + (j - 1)) (by omega)
  rw [show 2000 + (j - 1) + 1 = 2000 + j by omega] at hdec
  exact absurd hlt (not_lt.mpr hdec)

theorem handleRunBifurcation_wave_nil :
    handleRunBifurcation fWave pZero "a" ⟨0, 1, 1⟩ ⟨[0], 0, 4, 1, 0⟩ 0 = [] := by
  unfold handleRunBifurcation
  rw [List.flatMap_eq_nil_iff]
  intro i _
  show (localMaxima (((rungeKutta4 fWave [0] 0 200 0.05 _).series.getD 0 []).drop
    transientSteps)).map _ = []
  rw [wave_trim_nil]
  rfl

theorem flatMap_congr_fun {α β : Type} (l : List α) (f g : α → List β)
    (hfg : ∀ a, f a = g a) : l.flatMap f = l.flatMap g :=
  congrArg l.flatMap (funext hfg)

theorem getD_mapIdx (y : List ℚ) (g : Nat → ℚ → ℚ) (i : Nat) (hi : i < y.length) :
    (y.mapIdx g).getD i 0 = g i (y.getD i 0) := by
  rw [List.getD_eq_getElem _ _ (by simpa using hi), List.getElem_mapIdx,
    List.getD_eq_getElem y 0 hi]

theorem mapIdx_halfstep (y k : List ℚ) (a : ℚ) (hk : k.length = y.length) :
    (y.mapIdx fun i yi => yi + a * k.getD i 0) = vecAdd y (smulVec a k) := by
  apply List.ext_getElem (by simp [vecAdd, smulVec, hk])
  intro i h1 h2
  have hiy : i < y.length := by simpa using h1
  have hik : i < k.length := by omega
  simp only [List.getElem_mapIdx, vecAdd, smulVec, List.getElem_zipWith,
    List.getElem_map]
  rw [List.getD_eq_getElem k 0 hik]

/-- Claim C1: for every derivative function `f`, time `t`, state `y`, step
`h` and parameters, the single RK4 step returns exactly the classical RK4
update: with `k1 = f(t, y, p)`, `k2 = f(t + h/2, y + (h/2)·k1, p)`,
`k3 = f(t + h/2, y + (h/2)·k2, p)`, `k4 = f(t + h, y + h·k3, p)`, the result
satisfies `y_next[i] = y[i] + (h/6)·(k1[i] + 2·k2[i] + 2·k3[i] + k4[i])`
for each `i < N`, whenever `f` honours the length-`N` contract. -/
theorem rk4Step_classical (f : OdeFunction) (t h : ℚ) (y : List ℚ) (p : Params)
    (hf : ∀ t2 y2, (f t2 y2 p).length = y.length) :
    ∀ i < y.length,
      (rk4Step f t y h p).getD i 0
        = y.getD i 0 + (h / 6) *
            ((f t y p).getD i 0
             + 2 * (f (t + h / 2) (vecAdd y (smulVec (h / 2) (f t y p))) p).getD i 0
             + 2 * (f (t + h / 2)
                 (vecAdd y (smulVec (h / 2)
                   (f (t + h / 2) (vecAdd y (smulVec (h / 2) (f t y p))) p))) p).getD i 0
             + (f (t + h)
                 (vecAdd y (smulVec h
                   (f (t + h / 2)
                     (vecAdd y (smulVec (h / 2)
                       (f (t + h / 2) (vecAdd y (smulVec (h / 2) (f t y p))) p))) p))) p).getD i 0) := by
  intro i hi
  have e1 : (0.5 : ℚ) * h = h / 2 := by ring
  show ((y.mapIdx fun i yi => yi +
      (h / 6) * ((f t y p).getD i 0
        + 2 * (f (t + 0.5 * h) (y.mapIdx fun i yi => yi + 0.5 * h * (f t y p).getD i 0) p).getD i 0
        + 2 * (f (t + 0.5 * h)
            (y.mapIdx fun i yi => yi + 0.5 * h *
              (f (t + 0.5 * h) (y.mapIdx fun i yi => yi + 0.5 * h * (f t y p).getD i 0) p).getD i 0) p).getD i 0
        + (f (t + h)
            (y.mapIdx fun i yi => yi + h *
              (f (t + 0.5 * h)
                (y.mapIdx fun i yi => yi + 0.5 * h *
                  (f (t + 0.5 * h) (y.mapIdx fun i yi => yi + 0.5 * h * (f t y p).getD i 0) p).getD i 0) p).getD i 0) p).getD i 0)).getD i 0) = _
  rw [mapIdx_halfstep y (f t y p) (0.5 * h) (hf t y)]
  rw [e1]
  rw [mapIdx_halfstep y (f (t + h / 2) (vecAdd y (smulVec (h / 2) (f t y p))) p) (h / 2) (hf _ _)]
  rw [mapIdx_halfstep y
    (f (t + h / 2) (vecAdd y (smulVec (h / 2)
      (f (t + h / 2) (vecAdd y (smulVec (h / 2) (f t y p))) p))) p) h (hf _ _)]
  rw [getD_mapIdx y _ i hi]

/-- Witness for C1: the constant two-dimensional derivative `[1, 2]`
honours the length contract on the state `[0, 0]`, and with `h = 6` the
step advances component `0` by `(6/6)·(1 + 2 + 2 + 1) = 6`. -/
theorem rk4Step_classical_witness :
    (∀ t2 y2, (fConst [1, 2] t2 y2 pZero).length = ([0, 0] : List ℚ).length)
    ∧ (rk4Step (fConst [1, 2]) 0 [0, 0] 6 pZero).getD 0 0 = 6 := by
  refine ⟨fun _ _ => rfl, ?_⟩
  have h := rk4Step_classical (fConst [1, 2]) 0 6 [0, 0] pZero (fun _ _ => rfl) 0
    (by decide)
  rw [h]
  norm_num [fConst]

/-- Claim C10: for every derivative function `f` — including one returning
vectors of the wrong length — the single RK4 step returns a state vector
whose length equals the length of the input `y`: the output shape is
determined solely by `y`. -/
theorem rk4Step_output_shape (f : OdeFunction) (t : ℚ) (y : List ℚ) (h : ℚ)
    (p : Params) : (rk4Step f t y h p).length = y.length :=
  rk4Step_length f t y h p

/-- Claim C3: local-maxima extraction returns exactly the values at strict
interior maxima (the spec-worded `localMaximaSpec`); on every monotonic
series it returns the empty list; on every series of length at most 2 it
returns the empty list; and on `[0,1,0,2,0,3,0]` it returns `[1,2,3]`. -/
theorem localMaxima_correct (s : List ℚ) :
    localMaxima s = localMaximaSpec s
    ∧ ((∀ i, i + 1 < s.length → s.getD i 0 ≤ s.getD (i + 1) 0) ∨
        (∀ i, i + 1 < s.length → s.getD (i + 1) 0 ≤ s.getD i 0) →
        localMaxima s = [])
    ∧ (s.length ≤ 2 → localMaxima s = [])
    ∧ localMaxima [0, 1, 0, 2, 0, 3, 0] = [1, 2, 3] := by
  refine ⟨localMaxima_eq_spec s, ?_, ?_, ?_⟩
  · rintro (hup | hdown) <;> apply localMaxima_eq_nil_of_none <;> intro j hj0 hjlen
    · rintro ⟨-, hlt⟩
      exact absurd hlt (not_lt.mpr (hup j hjlen))
    · rintro ⟨hlt, -⟩
      have := hdown (j - 1) (by omega)
      rw [show j - 1 + 1 = j by omega] at this
      exact absurd hlt (not_lt.mpr this)
  · intro hshort
    unfold localMaxima
    rw [show s.length - 1 - 1 = 0 by omega]
    rfl
  · with_unfolding_all decide

/-- Witness for C3: a length-2 series has no interior point, so extraction
returns the empty list. -/
theorem localMaxima_correct_witness :
    ([(5 : ℚ), 5].length ≤ 2) ∧ localMaxima [(5 : ℚ), 5] = [] :=
  ⟨by decide, (localMaxima_correct [(5 : ℚ), 5]).2.2.1 (by decide)⟩

/-- Claim C4 (evaluation at the failing input): `rungeKutta4` performs no
`stepSize` validation — called with `stepSize = -1` over `[0, 1]` it
silently returns a result holding only the initial sample instead of
failing with a configuration error; the source contains no validation or
error path at all. -/
theorem rungeKutta4_accepts_nonpositive_step :
    rungeKutta4 fZero [0] 0 1 (-1) pZero
      = { time := [0], series := [[0]] } := by
  with_unfolding_all decide

/-- Claim C5 (evaluation at the failing input): `rungeKutta4` performs no
length validation on the derivative's output — with a derivative returning
the empty vector against a length-1 state it silently returns fully shaped
arrays (in JavaScript their values are `NaN`-corrupted) instead of failing
fast with a configuration error. -/
theorem rungeKutta4_accepts_wrong_length_derivative :
    (rungeKutta4 fEmpty [1] 0 1 1 pZero).time = [0, 1]
    ∧ (rungeKutta4 fEmpty [1] 0 1 1 pZero).series.length = 1
    ∧ ((rungeKutta4 fEmpty [1] 0 1 1 pZero).series.getD 0 []).length = 2 := by
  with_unfolding_all decide

/-- Claim C9: for every simulation produced by the sweep's sampler call
(`t_start = 0`, `t_end = 200`, `stepSize = 0.05`) and the transient the
code uses (`100`), the index-based slice `series.slice(transientSteps)`
returns exactly the suffix of the series whose timestamps are
`≥ t_start + transient`: no late sample is dropped and no early sample is
kept. -/
theorem transient_trim_suffix (f : OdeFunction) (p : Params) (y0 : List ℚ)
    (j : Nat) (hj : j < y0.length) :
    ((rungeKutta4 f y0 0 200 0.05 p).series.getD j []).drop transientSteps
      = trimSpec 0 100 (rungeKutta4 f y0 0 200 0.05 p).time
          ((rungeKutta4 f y0 0 200 0.05 p).series.getD j []) :=
  drop_eq_trim f p y0 j hj

/-- Witness for C9 at the zero-derivative one-dimensional system. -/
theorem transient_trim_suffix_witness :
    0 < ([0] : List ℚ).length
    ∧ ((rungeKutta4 fZero [0] 0 200 0.05 pZero).series.getD 0 []).drop transientSteps
        = trimSpec 0 100 (rungeKutta4 fZero [0] 0 200 0.05 pZero).time
            ((rungeKutta4 fZero [0] 0 200 0.05 pZero).series.getD 0 []) :=
  ⟨by decide, transient_trim_suffix fZero pZero [0] 0 (by decide)⟩

/-- Counterexample for C6: the sweep does not use the caller-supplied
simulation settings.  With settings `t_start = 0`, `t_end = 4`,
`stepSize = 1`, `transient = 0` and the square-pulse system `fWave`, the
claimed sweep finds the maximum `1` at both sweep points, while the code —
which integrates over the hardcoded `[0, 200]` grid with step `0.05` and
trims the hardcoded transient `100`, past the pulse — finds nothing. -/
theorem handleRunBifurcation_ne_sweepSpec :
    handleRunBifurcation fWave pZero "a" ⟨0, 1, 1⟩ ⟨[0], 0, 4, 1, 0⟩ 0
      ≠ sweepSpec fWave pZero "a" ⟨0, 1, 1⟩ ⟨[0], 0, 4, 1, 0⟩ 0 := by
  have hs : sweepSpec fWave pZero "a" ⟨0, 1, 1⟩ ⟨[0], 0, 4, 1, 0⟩ 0
      = [(0, 1), (1, 1)] := by
    with_unfolding_all decide
  rw [handleRunBifurcation_wave_nil, hs]
  simp

/-- Claim C6 as amended: the sweep evaluates exactly the `S + 1` parameter
values `min + i·(max - min)/S` and for each runs the Trajectory Sampler
with the parameter overridden and the caller's initial conditions, but over
the fixed grid `t_start = 0`, `t_end = 200`, `stepSize = 0.05` with a fixed
transient of `100` time units (ignoring the caller's `t_start`, `t_end`,
`stepSize` and `transient`), then trims and emits one
`(paramValue, maximum)` pair per local maximum of the observed variable. -/
theorem handleRunBifurcation_eq_sweepSpecAmended (f : OdeFunction) (bp : Params)
    (name : String) (pr : ParamRange) (sp : SimulationParams) (vI : Nat)
    (hvar : vI < sp.initialConditions.length) :
    handleRunBifurcation f bp name pr sp vI = sweepSpecAmended f bp name pr sp vI := by
  simp only [handleRunBifurcation, sweepSpecAmended]
  apply flatMap_congr_fun
  intro i
  dsimp only
  rw [drop_eq_trim f (overrideParam bp name
      (pr.min + (i : ℚ) * ((pr.max - pr.min) / (pr.steps : ℚ))))
      sp.initialConditions vI hvar,
    localMaxima_eq_spec]

/-- Witness for C6's amended theorem at a one-dimensional instance. -/
theorem handleRunBifurcation_eq_sweepSpecAmended_witness :
    0 < (⟨[0], 0, 1, 1, 0⟩ : SimulationParams).initialConditions.length
    ∧ handleRunBifurcation fZero pZero "a" ⟨0, 1, 1⟩ ⟨[0], 0, 1, 1, 0⟩ 0
        = sweepSpecAmended fZero pZero "a" ⟨0, 1, 1⟩ ⟨[0], 0, 1, 1, 0⟩ 0 :=
  ⟨by decide,
    handleRunBifurcation_eq_sweepSpecAmended fZero pZero "a" ⟨0, 1, 1⟩
      ⟨[0], 0, 1, 1, 0⟩ 0 (by decide)⟩

/-- Claim C2: with `M = toNat ⌊(t_end - t_start)/stepSize⌋` and
`stepSize > 0`, the sampler returns `M + 1` samples in the time sequence
and in each of the `N` series; `time[0] = t_start` and
`series[j][0] = initialConditions[j]`; each successive sample advances the
time by `stepSize` and the state by one `rk4Step`; `M` is the claimed floor
when `t_start ≤ t_end` and `M = 0` when `t_end ≤ t_start` (so the result is
the single initial sample, not an error). -/
theorem simulate_structure (f : OdeFunction) (p : Params) (y0 : List ℚ)
    (t0 t1 h : ℚ) (hstep : 0 < h) :
    (rungeKutta4 f y0 t0 t1 h p).time.length = numSteps t0 t1 h + 1
    ∧ (rungeKutta4 f y0 t0 t1 h p).series.length = y0.length
    ∧ (∀ j < y0.length,
        ((rungeKutta4 f y0 t0 t1 h p).series.getD j []).length
          = numSteps t0 t1 h + 1)
    ∧ (rungeKutta4 f y0 t0 t1 h p).time.getD 0 0 = t0
    ∧ (∀ j < y0.length,
        ((rungeKutta4 f y0 t0 t1 h p).series.getD j []).getD 0 0 = y0.getD j 0)
    ∧ (∀ i < numSteps t0 t1 h,
        (rungeKutta4 f y0 t0 t1 h p).time.getD (i + 1) 0
          = (rungeKutta4 f y0 t0 t1 h p).time.getD i 0 + h
        ∧ ((List.range y0.length).map fun j =>
              ((rungeKutta4 f y0 t0 t1 h p).series.getD j []).getD (i + 1) 0)
            = rk4Step f ((rungeKutta4 f y0 t0 t1 h p).time.getD i 0)
                ((List.range y0.length).map fun j =>
                  ((rungeKutta4 f y0 t0 t1 h p).series.getD j []).getD i 0) h p)
    ∧ (t0 ≤ t1 → (numSteps t0 t1 h : ℤ) = Int.floor ((t1 - t0) / h))
    ∧ (t1 ≤ t0 → numSteps t0 t1 h = 0) := by
  have hcol : ∀ m < numSteps t0 t1 h + 1,
      ((List.range y0.length).map fun j =>
          ((rungeKutta4 f y0 t0 t1 h p).series.getD j []).getD m 0)
        = stateAt f h p t0 y0 m := by
    intro m hm
    have hpt : ∀ j ∈ List.range y0.length,
        ((rungeKutta4 f y0 t0 t1 h p).series.getD j []).getD m 0
          = (stateAt f h p t0 y0 m).getD j 0 := by
      intro j hj
      rw [List.mem_range] at hj
      rw [rungeKutta4_series_getD f y0 t0 t1 h p j hj, getD_map_range _ _ _ _ hm]
    rw [List.map_congr_left hpt,
      show y0.length = (stateAt f h p t0 y0 m).length from
        (stateAt_length f h p t0 y0 m).symm]
    exact list_eq_map_getD _ 0
  refine ⟨?_, ?_, ?_, ?_, ?_, ?_, ?_, ?_⟩
  · rw [rungeKutta4_time]; simp
  · rw [rungeKutta4_series]; simp
  · intro j hj
    rw [rungeKutta4_series_getD f y0 t0 t1 h p j hj]
    simp
  · rw [rungeKutta4_time, getD_map_range _ _ _ _ (Nat.succ_pos _)]
    norm_num
  · intro j hj
    rw [rungeKutta4_series_getD f y0 t0 t1 h p j hj,
      getD_map_range _ _ _ _ (Nat.succ_pos _)]
    rfl
  · intro i hi
    constructor
    · rw [rungeKutta4_time,
        getD_map_range _ _ _ _ (by omega : i + 1 < numSteps t0 t1 h + 1),
        getD_map_range _ _ _ _ (by omega : i < numSteps t0 t1 h + 1)]
      push_cast
      ring
    · rw [hcol (i + 1) (by omega), hcol i (by omega), rungeKutta4_time,
        getD_map_range _ _ _ _ (by omega : i < numSteps t0 t1 h + 1)]
      exact stateAt_succ f h p t0 y0 i
  · intro hle
    apply Int.toNat_of_nonneg
    exact Int.floor_nonneg.mpr (div_nonneg (by linarith) (le_of_lt hstep))
  · intro hle
    apply Int.toNat_of_nonpos
    exact Int.floor_nonpos (div_nonpos_of_nonpos_of_nonneg (by linarith)
      (le_of_lt hstep))

/-- Witness for C2 at the zero-derivative system over `[0, 2]` with unit
step (`M = 2`). -/
theorem simulate_structure_witness :
    (0 : ℚ) < 1
    ∧ ((rungeKutta4 fZero [5] 0 2 1 pZero).time.length = numSteps 0 2 1 + 1
      ∧ (rungeKutta4 fZero [5] 0 2 1 pZero).series.length = ([5] : List ℚ).length
      ∧ (∀ j < ([5] : List ℚ).length,
          ((rungeKutta4 fZero [5] 0 2 1 pZero).series.getD j []).length
            = numSteps 0 2 1 + 1)
      ∧ (rungeKutta4 fZero [5] 0 2 1 pZero).time.getD 0 0 = 0
      ∧ (∀ j < ([5] : List ℚ).length,
          ((rungeKutta4 fZero [5] 0 2 1 pZero).series.getD j []).getD 0 0
            = ([5] : List ℚ).getD j 0)
      ∧ (∀ i < numSteps 0 2 1,
          (rungeKutta4 fZero [5] 0 2 1 pZero).time.getD (i + 1) 0
            = (rungeKutta4 fZero [5] 0 2 1 pZero).time.getD i 0 + 1
          ∧ ((List.range ([5] : List ℚ).length).map fun j =>
                ((rungeKutta4 fZero [5] 0 2 1 pZero).series.getD j []).getD (i + 1) 0)
              = rk4Step fZero ((rungeKutta4 fZero [5] 0 2 1 pZero).time.getD i 0)
                  ((List.range ([5] : List ℚ).length).map fun j =>
                    ((rungeKutta4 fZero [5] 0 2 1 pZero).series.getD j []).getD i 0)
                  1 pZero)
      ∧ ((0 : ℚ) ≤ 2 → (numSteps 0 2 1 : ℤ) = Int.floor (((2 : ℚ) - 0) / 1))
      ∧ ((2 : ℚ) ≤ 0 → numSteps 0 2 1 = 0)) :=
  ⟨one_pos, simulate_structure fZero pZero [5] 0 2 1 one_pos⟩

theorem stateAt_const (f : OdeFunction) (p : Params) (c y0 : List ℚ)
    (hf : ∀ t y, f t y p = c) (t0 h : ℚ) (j : Nat) (hj : j < y0.length) :
    ∀ m : Nat, (stateAt f h p t0 y0 m).getD j 0
      = y0.getD j 0 + (m : ℚ) * h * c.getD j 0 := by
  intro m
  induction m with
  | zero =>
    rw [stateAt_zero]
    push_cast
    ring
  | succ m ih =>
    have hjy : j < (stateAt f h p t0 y0 m).length := by
      rw [stateAt_length]; exact hj
    rw [stateAt_succ]
    simp only [rk4Step, hf]
    rw [getD_mapIdx _ _ j hjy, ih]
    push_cast
    ring

/-- Claim C7: for every constant-derivative system `f ≡ c`, initial state
`y0`, `t_start < t_end` and `stepSize > 0`, each sample of the simulation
equals `y0 + c · (t - t_start)` exactly at its sample time `t` (RK4 is
exact on constant derivatives; in rational arithmetic the equality is
literal). -/
theorem simulate_const_exact (f : OdeFunction) (p : Params) (c y0 : List ℚ)
    (t0 t1 h : ℚ) (hf : ∀ t y, f t y p = c) (hlen : c.length = y0.length)
    (hlt : t0 < t1) (hstep : 0 < h) :
    ∀ j < y0.length, ∀ m < numSteps t0 t1 h + 1,
      ((rungeKutta4 f y0 t0 t1 h p).series.getD j []).getD m 0
        = y0.getD j 0 + c.getD j 0 *
            ((rungeKutta4 f y0 t0 t1 h p).time.getD m 0 - t0) := by
  intro j hj m hm
  rw [rungeKutta4_series_getD f y0 t0 t1 h p j hj, getD_map_range _ _ _ _ hm,
    rungeKutta4_time, getD_map_range _ _ _ _ hm,
    stateAt_const f p c y0 hf t0 h j hj m]
  ring

/-- Witness for C7: the system `f ≡ [2]` from `y0 = [7]` over `[0, 2]` with
unit step. -/
theorem simulate_const_exact_witness :
    (∀ t y, fConst [2] t y pZero = [2])
    ∧ ([2] : List ℚ).length = ([7] : List ℚ).length
    ∧ (0 : ℚ) < 2
    ∧ (0 : ℚ) < 1
    ∧ ∀ j < ([7] : List ℚ).length, ∀ m < numSteps 0 2 1 + 1,
        ((rungeKutta4 (fConst [2]) [7] 0 2 1 pZero).series.getD j []).getD m 0
          = ([7] : List ℚ).getD j 0 + ([2] : List ℚ).getD j 0 *
              ((rungeKutta4 (fConst [2]) [7] 0 2 1 pZero).time.getD m 0 - 0) :=
  ⟨fun _ _ => rfl, rfl, two_pos, one_pos,
    simulate_const_exact (fConst [2]) pZero [2] [7] 0 2 1 (fun _ _ => rfl) rfl
      two_pos one_pos⟩

theorem getD_map_range_step {α : Type} (g : Nat → α) (a n st k : Nat) (d : α)
    (hk : k < n) : (((List.range' a n st).map g).getD k d) = g (a + st * k) := by
  rw [List.getD_eq_getElem _ _ (by simpa using hk)]
  simp

/-- Claim C8: downsampling selects every `stride`-th sample with
`stride = max(1, ⌊L / 2000⌋)` (the target point count `P = 2000` is fixed
in the source), starting at index 0 and preserving order: the output has
`⌈L / stride⌉` points and its `k`-th point is the sample at index
`k·stride`; in particular for `L = 10000` the stride is 5, the output has
exactly 2000 points, and the first point is the original first sample. -/
theorem phasePortraitData_correct (series : List (List ℚ)) (xI yI L : Nat)
    (h0 : (series.getD 0 []).length = L)
    (hx : (series.getD xI []).length = L)
    (hy : (series.getD yI []).length = L) :
    (phasePortraitData series xI yI).length
        = (L + max 1 (L / 2000) - 1) / max 1 (L / 2000)
    ∧ (∀ k < (L + max 1 (L / 2000) - 1) / max 1 (L / 2000),
        (phasePortraitData series xI yI).getD k (0, 0)
          = ((series.getD xI []).getD (k * max 1 (L / 2000)) 0,
             (series.getD yI []).getD (k * max 1 (L / 2000)) 0))
    ∧ (L = 10000 →
        max 1 (L / 2000) = 5
        ∧ (phasePortraitData series xI yI).length = 2000
        ∧ (phasePortraitData series xI yI).getD 0 (0, 0)
            = ((series.getD xI []).getD 0 0, (series.getD yI []).getD 0 0)) := by
  have hmain : (phasePortraitData series xI yI).length
      = (L + max 1 (L / 2000) - 1) / max 1 (L / 2000) := by
    simp only [phasePortraitData, h0]
    simp
  have hpoint : ∀ k < (L + max 1 (L / 2000) - 1) / max 1 (L / 2000),
      (phasePortraitData series xI yI).getD k (0, 0)
        = ((series.getD xI []).getD (k * max 1 (L / 2000)) 0,
           (series.getD yI []).getD (k * max 1 (L / 2000)) 0) := by
    intro k hk
    simp only [phasePortraitData, h0]
    rw [getD_map_range_step _ 0 _ _ k (0, 0) hk, Nat.zero_add, Nat.mul_comm]
  refine ⟨hmain, hpoint, fun hL10 => ?_⟩
  subst hL10
  refine ⟨by decide, ?_, ?_⟩
  · rw [hmain]
    decide
  · rw [hpoint 0 (by decide), Nat.zero_mul]

/-- Witness for C8 on a length-10000 series. -/
theorem phasePortraitData_correct_witness :
    ([List.replicate 10000 (0 : ℚ)].getD 0 []).length = 10000
    ∧ (phasePortraitData [List.replicate 10000 (0 : ℚ)] 0 0).length = 2000 :=
  ⟨List.length_replicate 10000 0,
    ((phasePortraitData_correct [List.replicate 10000 (0 : ℚ)] 0 0 10000
      (List.length_replicate 10000 0) (List.length_replicate 10000 0)
      (List.length_replicate 10000 0)).2.2 rfl).2.1⟩

end OdeAnalyser
